import Mathlib

/-!
API-Listener: route table, stats log and path validator.

A shallow embedding of `main.go`.

* Go strings are modelled by `String`; the source only inspects the first byte
  (`uri[0]`), splits on the byte `/` and matches the ASCII class `\w`, and a
  byte equals `/` exactly when the character it starts is `/`.
* A run-time panic is an `Except.error` carrying Go's panic text.
* `mu` serialises the critical sections, so a handler is one atomic step on
  the server state.
* `time.Now()` is an input of the generic handler.
-/

namespace APIListener

/-! ## Regular expressions (package `regexp`) -/

/-- The Perl class `\w` of Go's `regexp`: `[0-9A-Za-z_]`, ASCII only. -/
def isWordChar (c : Char) : Bool :=
  ('0' ≤ c && c ≤ '9') || ('A' ≤ c && c ≤ 'Z') || c == '_' || ('a' ≤ c && c ≤ 'z')

/-- Regular expression syntax, as far as the program and its spec use it. -/
inductive Re where
  | fail : Re
  | eps : Re
  | cls : (Char → Bool) → Re
  | seq : Re → Re → Re
  | alt : Re → Re → Re
  | star : Re → Re

namespace Re

/-- One or more repetitions, `a+`. -/
def plus (a : Re) : Re := seq a (star a)

/-- Does the expression accept the empty text? -/
def nullable : Re → Bool
  | fail => false
  | eps => true
  | cls _ => false
  | seq a b => a.nullable && b.nullable
  | alt a b => a.nullable || b.nullable
  | star _ => true

/-- Brzozowski derivative with respect to one character. -/
def deriv : Re → Char → Re
  | fail, _ => fail
  | eps, _ => fail
  | cls p, c => if p c then eps else fail
  | seq a b, c => if a.nullable then alt (seq (a.deriv c) b) (b.deriv c) else seq (a.deriv c) b
  | alt a b, c => alt (a.deriv c) (b.deriv c)
  | star a, c => seq (a.deriv c) (star a)

/-- Match of the whole text: the expression stands between `^` and `$`, and
without the `m` flag these are the beginning and the end of the text. -/
def fullMatch (r : Re) : List Char → Bool
  | [] => r.nullable
  | c :: cs => fullMatch (r.deriv c) cs

/-- The set of texts an expression denotes. -/
def Lang : Re → List Char → Prop
  | fail, _ => False
  | eps, w => w = []
  | cls p, w => ∃ c, w = [c] ∧ p c = true
  | seq a b, w => ∃ u v, w = u ++ v ∧ a.Lang u ∧ b.Lang v
  | alt a b, w => a.Lang w ∨ b.Lang w
  | star a, w => ∃ ws : List (List Char), w = ws.flatten ∧ ∀ u ∈ ws, a.Lang u

end Re

/-- The expression compiled in `isURIValid`: `^\w+$`. -/
def reWord : Re := Re.plus (Re.cls isWordChar)

/-- The expression the spec gives for a valid path: `^(/\w+)+$`. -/
def rePath : Re := Re.plus (Re.seq (Re.cls (fun c => c == '/')) (Re.plus (Re.cls isWordChar)))

/-! ## Path validator -/

/-- The parts of `strings.Split(s, "/")` for a one-character separator: one
more part than there are separators, empty parts included. -/
def splitChars (sep : Char) : List Char → List (List Char)
  | [] => [[]]
  | c :: cs =>
    if c = sep then [] :: splitChars sep cs
    else
      match splitChars sep cs with
      | [] => [[c]]
      | p :: ps => (c :: p) :: ps

/-- The loop over `parts` in `isURIValid`. -/
def checkParts : List (List Char) → Bool
  | [] => true
  | part :: rest =>
    if part = [] then false
    else if !reWord.fullMatch part then false
    else checkParts rest

/-- Source: `isURIValid`. -/
def isURIValid (uri : String) : Bool :=
  if uri = "" ∨ uri = "/" then false
  else
    match splitChars '/' uri.data with
    | [] => false
    | first :: parts =>
      if first ≠ [] then false
      else if parts.length = 0 then false
      else checkParts parts

/-- Source: `normalizeURI`. `uri[0]` on the empty string is a run-time panic. -/
def normalizeURI (uri : String) : Except String String :=
  match uri.data with
  | [] => .error "runtime error: index out of range [0] with length 0"
  | c :: _ => if c ≠ '/' then .ok ("/" ++ uri) else .ok uri

/-- What the spec says a valid path is: a `/` followed by one or more segments
joined by single `/` characters, every segment non-empty and made of word
characters only. -/
def SegmentedPath (p : String) : Prop :=
  ∃ segs : List (List Char), segs ≠ [] ∧
    (∀ s ∈ segs, s ≠ [] ∧ ∀ c ∈ s, isWordChar c = true) ∧
    p.data = '/' :: List.intercalate ['/'] segs

/-! ## Data model -/

/-- Source: `statReq`. `Headers` is never assigned by the program, so it is
always the nil map, written `[]`. -/
structure statReq where
  URI : String
  Headers : List (String × String)
  Body : String
  Method : String
  Time : String
deriving DecidableEq

/-- The handlers the program registers on `mux`. -/
inductive Hnd where
  | root
  | addRoute
  | removeRoute
  | getStat
  | generic
deriving DecidableEq

/-- The fields of `*http.Request` the program and the dispatcher read.
`Payload` is what `r.Body` would deliver. -/
structure Request where
  Method : String
  RequestURI : String
  Host : String
  Path : String
  Payload : String
deriving DecidableEq

/-- Process-wide state: the patterns registered on `mux`, in registration
order, and the map `stat`. -/
structure Server where
  mux : List (String × Hnd)
  stat : String → Option (List statReq)

/-- What a handler wrote to its `http.ResponseWriter`. -/
inductive Body where
  | empty
  | text (s : String)
  | json (items : List statReq)
deriving DecidableEq

/-- Outcome of one handler call: the state afterwards, the response body, and
the panic text when the call panicked (the deferred `mu.Unlock` has run). -/
structure Result where
  server : Server
  body : Body
  panicked : Option String

/-- Behaviour of the Go standard library that the program calls and that is
not modelled here in full.
* `newRequest url`: `http.NewRequest("GET", url, nil)` for a `url` that is
  neither `/` nor a validated path (escapes, query, fragment, authority,
  control bytes).
* `handlerPattern patterns r`: the pattern `mux.Handler(r)` reports when path
  cleaning, redirects or non-literal patterns can be involved.
* `jsonObject`: the `encoding/json` text of one `statReq`. -/
structure StdLib where
  newRequest : String → Except String Request
  handlerPattern : List String → Request → String
  jsonObject : statReq → String

/-! ## `http.ServeMux` -/

/-- Byte-wise `strings.HasPrefix`. -/
def startsWith (s p : String) : Bool := p.data.isPrefixOf s.data

/-- Does the pattern end in `/` (a subtree pattern)? -/
def isSubtree (p : String) : Bool := p.data.getLast? == some '/'

/-- Matching of a cleaned path against literal patterns: an exact match wins,
otherwise the longest registered subtree pattern that is a beginning of the
path, otherwise no pattern (`""`). -/
def muxMatch (routes : List (String × Hnd)) (path : String) : String :=
  if routes.any (fun e => e.1 == path) then path
  else
    routes.foldl
      (fun best e =>
        if isSubtree e.1 && startsWith path e.1 && decide (best.length < e.1.length)
        then e.1 else best)
      ""

/-- The patterns this program registers: `/` and validated paths. -/
def literalPattern (p : String) : Bool := p == "/" || isURIValid p

/-- A request whose path is `/` or a validated path, against literal patterns
only: `mux.Handler` then cleans nothing, redirects nothing and matches
plainly. -/
def plainLookup (routes : List (String × Hnd)) (r : Request) : Bool :=
  literalPattern r.Path && routes.all (fun e => literalPattern e.1)

/-- The pattern returned by `mux.Handler(r)`. -/
def muxHandler (lib : StdLib) (routes : List (String × Hnd)) (r : Request) : String :=
  if plainLookup routes r then muxMatch routes r.Path
  else lib.handlerPattern (routes.map Prod.fst) r

/-- Library call `http.NewRequest("GET", url, nil)`: for `/` and for a
validated path the request has that path, no host and no request-target. -/
def NewRequest (lib : StdLib) (url : String) : Except String Request :=
  if literalPattern url then
    .ok { Method := "GET", RequestURI := "", Host := "", Path := url, Payload := "" }
  else lib.newRequest url

/-- Library call `mux.HandleFunc(pattern, handler)`: panics on a nil handler, on an empty
pattern and on a pattern that is already registered. -/
def HandleFunc (routes : List (String × Hnd)) (pattern : String) (h : Option Hnd) :
    Except String (List (String × Hnd)) :=
  match h with
  | none => .error "http: nil handler"
  | some h =>
    if pattern = "" then .error "http: invalid pattern"
    else if routes.any (fun e => e.1 == pattern) then
      .error ("http: multiple registrations for " ++ pattern)
    else .ok (routes ++ [(pattern, h)])

/-! ## The program -/

/-- Source: `AddRoute`. -/
def AddRoute (s : Server) (path : String) (h : Hnd) : Except String Server :=
  match HandleFunc s.mux path (some h) with
  | .error e => .error e
  | .ok m => .ok { s with mux := m }

/-- Source: `RemoveRoute`, which calls `mux.HandleFunc(path, nil)`. -/
def RemoveRoute (s : Server) (path : String) : Except String Server :=
  match HandleFunc s.mux path none with
  | .error e => .error e
  | .ok m => .ok { s with mux := m }

/-- Assignment `stat[path] = items`. -/
def setStat (stat : String → Option (List statReq)) (path : String) (items : List statReq) :
    String → Option (List statReq) :=
  fun k => if k = path then some items else stat k

/-- Library call `r.Body.Read(buf)` into a buffer of `n` bytes: at most `n` bytes arrive. -/
def readBody (payload : String) (n : Nat) : String := ⟨payload.data.take n⟩

/-- The state `main` sets up before it blocks. -/
def initServer : Server where
  mux := [("/", Hnd.root), ("/addRoute", Hnd.addRoute), ("/removeRoute", Hnd.removeRoute),
    ("/getStat", Hnd.getStat)]
  stat := fun _ => none

/-- Source: `main`, the handler of `/addRoute`; `raw` is
`r.URL.Query().Get("path")`. -/
def addRouteEndpoint (lib : StdLib) (s : Server) (raw : String) : Result :=
  match normalizeURI raw with
  | .error e => ⟨s, .empty, some e⟩
  | .ok path =>
    if !isURIValid path then ⟨s, .text ("Invalid path: " ++ path ++ "\n"), none⟩
    else
      match NewRequest lib path with
      | .error e => ⟨s, .text ("Error creating request: " ++ e ++ "\n"), none⟩
      | .ok testReq =>
        let pattern := muxHandler lib s.mux testReq
        if pattern ≠ "" then
          ⟨s, .text ("Route [" ++ path ++ "] already registered, remove first.\n"), none⟩
        else
          match AddRoute s path Hnd.generic with
          | .error e => ⟨s, .empty, some e⟩
          | .ok s' => ⟨s', .text ("New route was added: " ++ path ++ "\n"), none⟩

/-- Source: `main`, the handler of `/removeRoute`. -/
def removeRouteEndpoint (lib : StdLib) (s : Server) (raw : String) : Result :=
  match normalizeURI raw with
  | .error e => ⟨s, .empty, some e⟩
  | .ok path =>
    match NewRequest lib path with
    | .error e => ⟨s, .text ("Error creating request: " ++ e ++ "\n"), none⟩
    | .ok testReq =>
      let pattern := muxHandler lib s.mux testReq
      if pattern = "" then
        ⟨s, .text ("Route doesn't exist, nothing to remove: " ++ path ++ "\n"), none⟩
      else
        match RemoveRoute s path with
        | .error e => ⟨s, .empty, some e⟩
        | .ok s' => ⟨s', .text ("Route removed: " ++ path ++ "\n"), none⟩

/-- Source: `main`, the handler of `/getStat`. `json.Marshal` cannot fail on a
`[]statReq`, so its error branch is not represented. -/
def getStatEndpoint (s : Server) (raw : String) : Result :=
  match normalizeURI raw with
  | .error e => ⟨s, .empty, some e⟩
  | .ok path =>
    if !isURIValid path then ⟨s, .text ("Invalid path: " ++ path ++ "\n"), none⟩
    else
      match s.stat path with
      | none => ⟨s, .empty, none⟩
      | some statItems => ⟨{ s with stat := setStat s.stat path [] }, .json statItems, none⟩

/-- Source: `handler`, installed on every added route; `now` is
`time.Now().Format("2006-01-02 15:04:05.000")`. -/
def handler (lib : StdLib) (s : Server) (r : Request) (now : String) : Result :=
  let pattern := muxHandler lib s.mux r
  let body := readBody r.Payload 0
  let stat1 := if (s.stat pattern).isNone then setStat s.stat pattern [] else s.stat
  let stat2 := setStat stat1 pattern
    ((stat1 pattern).getD [] ++
      [{ URI := r.RequestURI, Headers := [], Body := body, Method := r.Method, Time := now }])
  ⟨{ s with stat := stat2 }, .text ("Hello, You visited: " ++ pattern ++ "\n"), none⟩

/-! ## Reading a response -/

/-- The records a response carries. -/
def Body.records : Body → List statReq
  | .json items => items
  | _ => []

/-- The bytes of a response body; a JSON body is the array `json.Marshal`
gives for a non-nil slice, followed by the newline of `"%s\n"`. -/
def Body.render (lib : StdLib) : Body → String
  | .empty => ""
  | .text s => s
  | .json items => "[" ++ ",".intercalate (items.map lib.jsonObject) ++ "]" ++ "\n"

/-- The sequence Go reads as `stat[path]`: empty when there is no entry. -/
def statOf (s : Server) (path : String) : List statReq := (s.stat path).getD []

/-! ## Runs of requests -/

/-- The record the spec says a request leaves behind: raw request-target,
no headers, empty body, method, timestamp. -/
def recordOf (r : Request) (now : String) : statReq :=
  { URI := r.RequestURI, Headers := [], Body := "", Method := r.Method, Time := now }

/-- Requests served one after the other by the generic handler, each with its
own timestamp. -/
def serveAll (lib : StdLib) (s : Server) (reqs : List (Request × String)) : Server :=
  reqs.foldl (fun st rq => (handler lib st rq.1 rq.2).server) s

/-- One atomic step on a path: a request recorded by the generic handler, or a
drain through `/getStat`. -/
inductive Step where
  | record (r : Request) (now : String)
  | drain

/-- Runs the steps in order; returns the final state and the records of every
drain response, in the order the drains ran. -/
def runSteps (lib : StdLib) (raw : String) : Server → List Step → Server × List (List statReq)
  | s, [] => (s, [])
  | s, Step.record r now :: rest => runSteps lib raw (handler lib s r now).server rest
  | s, Step.drain :: rest =>
    let res := getStatEndpoint s raw
    let out := runSteps lib raw res.server rest
    (out.1, res.body.records :: out.2)

/-- The records of the record steps, in order. -/
def recordedBy : List Step → List statReq
  | [] => []
  | Step.record r now :: rest => recordOf r now :: recordedBy rest
  | Step.drain :: rest => recordedBy rest

/-! ## Sample values -/

/-- A standard library that rejects every request it is asked to build and
reports no pattern. -/
def sampleLib : StdLib where
  newRequest := fun _ => .error "invalid URL"
  handlerPattern := fun _ _ => ""
  jsonObject := fun _ => ""

/-- A server with the catch-all and one added route `/x`, nothing recorded. -/
def sampleServer : Server where
  mux := [("/", Hnd.root), ("/x", Hnd.generic)]
  stat := fun _ => none

/-- Two requests to `/x`, the second with a payload. -/
def sampleRequests : List (Request × String) :=
  [(⟨"GET", "/x", "localhost", "/x", ""⟩, "2024-01-01 10:00:00.000"),
   (⟨"PUT", "/x?b=1", "localhost", "/x", "payload"⟩, "2024-01-01 10:00:00.250")]

/-- Record, drain, record, record, drain, record on `/x`. -/
def sampleSteps : List Step :=
  [Step.record ⟨"GET", "/x", "localhost", "/x", ""⟩ "t1", Step.drain,
   Step.record ⟨"GET", "/x?2", "localhost", "/x", ""⟩ "t2",
   Step.record ⟨"POST", "/x?3", "localhost", "/x", "payload"⟩ "t3", Step.drain,
   Step.record ⟨"GET", "/x?4", "localhost", "/x", ""⟩ "t4"]

/-! ## The matcher agrees with the denotation -/

namespace Re

theorem nullable_iff (r : Re) : r.nullable = true ↔ r.Lang [] := by
  induction r with
  | fail => simp [nullable, Lang]
  | eps => simp [nullable, Lang]
  | cls p => simp [nullable, Lang]
  | seq a b iha ihb =>
    simp only [nullable, Lang, Bool.and_eq_true, iha, ihb]
    constructor
    · rintro ⟨h1, h2⟩
      exact ⟨[], [], rfl, h1, h2⟩
    · rintro ⟨u, v, huv, h1, h2⟩
      have hu : u = [] := (List.append_eq_nil.mp huv.symm).1
      have hv : v = [] := (List.append_eq_nil.mp huv.symm).2
      subst hu
      subst hv
      exact ⟨h1, h2⟩
  | alt a b iha ihb => simp [nullable, Lang, iha, ihb]
  | star a _ =>
    simp only [nullable, Lang, true_iff]
    exact ⟨[], rfl, by simp⟩

theorem star_cons_iff (a : Re) (c : Char) (w : List Char) :
    (star a).Lang (c :: w) ↔ ∃ u v, w = u ++ v ∧ a.Lang (c :: u) ∧ (star a).Lang v := by
  constructor
  · rintro ⟨ws, hws, hall⟩
    induction ws with
    | nil => simp at hws
    | cons x xs ih =>
      cases x with
      | nil =>
        apply ih
        · simpa using hws
        · intro u hu
          exact hall u (List.mem_cons_of_mem _ hu)
      | cons d x' =>
        simp only [List.flatten_cons, List.cons_append, List.cons.injEq] at hws
        obtain ⟨hd, hw⟩ := hws
        subst hd
        refine ⟨x', xs.flatten, hw, hall _ (List.mem_cons_self _ _), xs, rfl, ?_⟩
        intro u hu
        exact hall u (List.mem_cons_of_mem _ hu)
  · rintro ⟨u, v, hw, hu, ws, hv, hall⟩
    refine ⟨(c :: u) :: ws, ?_, ?_⟩
    · simp [hw, hv]
    · intro x hx
      rcases List.mem_cons.mp hx with h | h
      · subst h
        exact hu
      · exact hall x h

theorem deriv_iff (r : Re) (c : Char) : ∀ w : List Char, (r.deriv c).Lang w ↔ r.Lang (c :: w) := by
  induction r with
  | fail => intro w; simp [deriv, Lang]
  | eps => intro w; simp [deriv, Lang]
  | cls p =>
    intro w
    by_cases hp : p c = true
    · simp only [deriv, hp, if_true, Lang]
      constructor
      · intro h
        exact ⟨c, by simp [h], hp⟩
      · rintro ⟨d, hd, _⟩
        simp only [List.cons.injEq] at hd
        exact hd.2
    · simp only [deriv, hp, Lang, false_iff]
      rintro ⟨d, hd, hpd⟩
      simp only [List.cons.injEq] at hd
      exact hp (hd.1 ▸ hpd)
  | seq a b iha ihb =>
    intro w
    have key : (seq (a.deriv c) b).Lang w ↔
        ∃ u v, w = u ++ v ∧ a.Lang (c :: u) ∧ b.Lang v := by
      simp only [Lang, iha]
    have split : (seq a b).Lang (c :: w) ↔
        (a.Lang [] ∧ b.Lang (c :: w)) ∨ ∃ u v, w = u ++ v ∧ a.Lang (c :: u) ∧ b.Lang v := by
      simp only [Lang]
      constructor
      · rintro ⟨u, v, huv, hu, hv⟩
        cases u with
        | nil =>
          left
          simp only [List.nil_append] at huv
          exact ⟨hu, huv ▸ hv⟩
        | cons d u' =>
          right
          simp only [List.cons_append, List.cons.injEq] at huv
          obtain ⟨hd, hw⟩ := huv
          subst hd
          exact ⟨u', v, hw, hu, hv⟩
      · rintro (⟨h1, h2⟩ | ⟨u, v, hw, hu, hv⟩)
        · exact ⟨[], c :: w, rfl, h1, h2⟩
        · exact ⟨c :: u, v, by simp [hw], hu, hv⟩
    by_cases hn : a.nullable = true
    · have hn' := (nullable_iff a).mp hn
      rw [split]
      simp only [deriv, hn, if_true]
      show (seq (a.deriv c) b).Lang w ∨ (b.deriv c).Lang w ↔ _
      rw [key, ihb]
      constructor
      · rintro (h | h)
        · exact Or.inr h
        · exact Or.inl ⟨hn', h⟩
      · rintro (⟨_, h⟩ | h)
        · exact Or.inr h
        · exact Or.inl h
    · have hn' : ¬ a.Lang [] := fun h => hn ((nullable_iff a).mpr h)
      rw [split]
      simp only [deriv, hn, Bool.false_eq_true, if_false]
      rw [key]
      constructor
      · intro h
        exact Or.inr h
      · rintro (⟨h, _⟩ | h)
        · exact absurd h hn'
        · exact h
  | alt a b iha ihb => intro w; simp [deriv, Lang, iha, ihb]
  | star a iha =>
    intro w
    rw [star_cons_iff]
    simp only [deriv]
    show (∃ u v, w = u ++ v ∧ (a.deriv c).Lang u ∧ (star a).Lang v) ↔ _
    simp only [iha]

theorem fullMatch_iff (w : List Char) : ∀ r : Re, r.fullMatch w = true ↔ r.Lang w := by
  induction w with
  | nil => intro r; simpa [fullMatch] using nullable_iff r
  | cons c cs ih => intro r; simp only [fullMatch, ih, deriv_iff]

/-- Texts of `p+` for a character class `p`: non-empty, every character in `p`. -/
theorem lang_plus_cls (p : Char → Bool) (w : List Char) :
    (plus (cls p)).Lang w ↔ w ≠ [] ∧ ∀ c ∈ w, p c = true := by
  have hstar : ∀ v : List Char, (star (cls p)).Lang v ↔ ∀ c ∈ v, p c = true := by
    intro v
    induction v with
    | nil =>
      simp only [List.not_mem_nil, false_imp_iff, implies_true, iff_true]
      exact ⟨[], rfl, by simp⟩
    | cons d v ih =>
      rw [star_cons_iff]
      constructor
      · rintro ⟨u, v', hv, ⟨e, he, hpe⟩, hs⟩
        simp only [List.cons.injEq] at he
        obtain ⟨hde, hu⟩ := he
        subst hu
        subst hde
        simp only [List.nil_append] at hv
        subst hv
        intro x hx
        rcases List.mem_cons.mp hx with h | h
        · exact h ▸ hpe
        · exact (ih.mp hs) x h
      · intro h
        refine ⟨[], v, rfl, ⟨d, rfl, h d (List.mem_cons_self _ _)⟩, ?_⟩
        exact ih.mpr (fun x hx => h x (List.mem_cons_of_mem _ hx))
  cases w with
  | nil =>
    simp only [ne_eq, not_true_eq_false, false_and, iff_false]
    rintro ⟨u, v, huv, ⟨e, he, _⟩, _⟩
    subst he
    simp at huv
  | cons d v =>
    simp only [ne_eq, reduceCtorEq, not_false_eq_true, true_and]
    constructor
    · rintro ⟨u, v', huv, ⟨e, he, hpe⟩, hs⟩
      subst he
      simp only [List.singleton_append, List.cons.injEq] at huv
      obtain ⟨hde, hv⟩ := huv
      subst hde
      subst hv
      intro x hx
      rcases List.mem_cons.mp hx with h | h
      · exact h ▸ hpe
      · exact ((hstar _).mp hs) x h
    · intro h
      refine ⟨[d], v, rfl, ⟨d, rfl, h d (List.mem_cons_self _ _)⟩, ?_⟩
      exact (hstar v).mpr (fun x hx => h x (List.mem_cons_of_mem _ hx))

end Re

/-- What `^\w+$` accepts. -/
theorem reWord_fullMatch_iff (part : List Char) :
    reWord.fullMatch part = true ↔ part ≠ [] ∧ ∀ c ∈ part, isWordChar c = true := by
  rw [Re.fullMatch_iff]
  exact Re.lang_plus_cls isWordChar part

/-! ## Splitting and joining -/

theorem intercalate_cons_cons (sep x y : List Char) (ys : List (List Char)) :
    List.intercalate sep (x :: y :: ys) = x ++ sep ++ List.intercalate sep (y :: ys) := by
  simp [List.intercalate, List.intersperse]

theorem intercalate_single (sep x : List Char) : List.intercalate sep [x] = x := by
  simp [List.intercalate, List.intersperse]

theorem splitChars_ne_nil (sep : Char) (l : List Char) : splitChars sep l ≠ [] := by
  cases l with
  | nil => simp [splitChars]
  | cons c cs =>
    simp only [splitChars]
    split
    · simp
    · split <;> simp

/-- Joining the parts with the separator gives the text back. -/
theorem intercalate_splitChars (sep : Char) (l : List Char) :
    List.intercalate [sep] (splitChars sep l) = l := by
  induction l with
  | nil => simp [splitChars, intercalate_single]
  | cons c cs ih =>
    simp only [splitChars]
    split
    · rename_i hc
      obtain ⟨q, qs, hq⟩ := List.exists_cons_of_ne_nil (splitChars_ne_nil sep cs)
      rw [hq] at ih ⊢
      rw [intercalate_cons_cons, ih, hc]
      rfl
    · rename_i hc
      obtain ⟨q, qs, hq⟩ := List.exists_cons_of_ne_nil (splitChars_ne_nil sep cs)
      rw [hq] at ih ⊢
      cases qs with
      | nil =>
        rw [intercalate_single] at ih ⊢
        rw [ih]
      | cons q2 qs2 =>
        rw [intercalate_cons_cons] at ih ⊢
        rw [← ih]
        simp

/-- Splitting a separator-joined list of separator-free segments gives the
segments back. -/
theorem splitChars_intercalate (sep : Char) :
    ∀ segs : List (List Char), segs ≠ [] → (∀ s ∈ segs, sep ∉ s) →
      splitChars sep (List.intercalate [sep] segs) = segs := by
  have step : ∀ (x rest : List Char), sep ∉ x →
      splitChars sep (x ++ sep :: rest) = x :: splitChars sep rest := by
    intro x rest hx
    induction x with
    | nil => simp [splitChars]
    | cons d x ih =>
      have hd : d ≠ sep := fun h => hx (h ▸ List.mem_cons_self _ _)
      have hx' : sep ∉ x := fun h => hx (List.mem_cons_of_mem _ h)
      show splitChars sep (d :: (x ++ sep :: rest)) = _
      simp only [splitChars, hd, if_false]
      rw [ih hx']
  have last : ∀ x : List Char, sep ∉ x → splitChars sep x = [x] := by
    intro x hx
    induction x with
    | nil => simp [splitChars]
    | cons d x ih =>
      have hd : d ≠ sep := fun h => hx (h ▸ List.mem_cons_self _ _)
      have hx' : sep ∉ x := fun h => hx (List.mem_cons_of_mem _ h)
      simp only [splitChars, hd, if_false]
      rw [ih hx']
  intro segs
  induction segs with
  | nil => intro h; exact absurd rfl h
  | cons x xs ih =>
    intro _ hall
    cases xs with
    | nil =>
      rw [intercalate_single]
      exact last x (hall x (List.mem_cons_self _ _))
    | cons y ys =>
      rw [intercalate_cons_cons]
      have hx := hall x (List.mem_cons_self _ _)
      have := ih (by simp) (fun s hs => hall s (List.mem_cons_of_mem _ hs))
      simp only [List.append_assoc, List.singleton_append]
      rw [step x _ hx, this]

theorem slash_not_word : isWordChar '/' = false := by decide

theorem checkParts_iff (parts : List (List Char)) :
    checkParts parts = true ↔ ∀ s ∈ parts, s ≠ [] ∧ ∀ c ∈ s, isWordChar c = true := by
  induction parts with
  | nil => simp [checkParts]
  | cons x xs ih =>
    simp only [checkParts, List.mem_cons, forall_eq_or_imp]
    by_cases hx : x = []
    · simp [hx]
    · by_cases hm : reWord.fullMatch x = true
      · have hw := (reWord_fullMatch_iff x).mp hm
        simp only [hx, if_false, hm, Bool.not_true, Bool.false_eq_true, ih]
        constructor
        · intro h
          exact ⟨⟨hx, hw.2⟩, h⟩
        · intro h
          exact h.2
      · have hw : ¬ (x ≠ [] ∧ ∀ c ∈ x, isWordChar c = true) :=
          fun h => hm ((reWord_fullMatch_iff x).mpr h)
        simp only [hx, if_false, hm, Bool.not_false, if_true, Bool.false_eq_true, false_iff]
        intro h
        exact hw h.1

/-- The validator accepts exactly the paths the spec describes. -/
theorem isURIValid_iff_segmented (p : String) : isURIValid p = true ↔ SegmentedPath p := by
  constructor
  · intro h
    unfold isURIValid at h
    split at h
    · exact absurd h (by simp)
    · split at h
      · exact absurd h (by simp)
      · rename_i first parts hsplit
        split at h
        · exact absurd h (by simp)
        · rename_i hfirst
          split at h
          · exact absurd h (by simp)
          · rename_i hlen
            have hfirst' : first = [] := by simpa using hfirst
            have hparts : parts ≠ [] := by
              intro hp
              exact hlen (by simp [hp])
            refine ⟨parts, hparts, (checkParts_iff parts).mp h, ?_⟩
            have hj := intercalate_splitChars '/' p.data
            rw [hsplit, hfirst'] at hj
            obtain ⟨q, qs, hq⟩ := List.exists_cons_of_ne_nil hparts
            rw [hq, intercalate_cons_cons] at hj
            rw [hq, ← hj]
            rfl
  · rintro ⟨segs, hne, hall, hdata⟩
    obtain ⟨q, qs, hq⟩ := List.exists_cons_of_ne_nil hne
    have hnosep : ∀ s ∈ ([] : List Char) :: segs, '/' ∉ s := by
      intro s hs
      rcases List.mem_cons.mp hs with h | h
      · simp [h]
      · intro hmem
        have := (hall s h).2 _ hmem
        rw [slash_not_word] at this
        exact absurd this (by simp)
    have hsplit : splitChars '/' p.data = [] :: segs := by
      have := splitChars_intercalate '/' ([] :: segs) (by simp) hnosep
      rw [hq, intercalate_cons_cons] at this
      rw [hdata, hq]
      simpa using this
    have hq1 : q ≠ [] := (hall q (by simp [hq])).1
    have hinter : List.intercalate ['/'] segs ≠ [] := by
      rw [hq]
      cases qs with
      | nil => rw [intercalate_single]; exact hq1
      | cons y ys => rw [intercalate_cons_cons]; simp [hq1]
    have h1 : p ≠ "" := by
      intro h
      rw [h] at hdata
      simp at hdata
    have h2 : p ≠ "/" := by
      intro h
      rw [h] at hdata
      have : List.intercalate ['/'] segs = [] := by
        have h3 : ("/" : String).data = ['/'] := rfl
        rw [h3] at hdata
        simp only [List.cons.injEq, true_and] at hdata
        exact hdata.symm
      exact hinter this
    unfold isURIValid
    simp only [h1, h2, or_self, if_false, hsplit]
    simp only [ne_eq, not_true_eq_false, if_false]
    have hlen : ¬ segs.length = 0 := by
      simp [hq]
    simp only [hlen, if_false]
    exact (checkParts_iff segs).mpr hall

/-! ## The spec's regular expression -/

theorem Re.lang_plus (a : Re) (w : List Char) :
    (Re.plus a).Lang w ↔ ∃ ws : List (List Char), ws ≠ [] ∧ w = ws.flatten ∧ ∀ u ∈ ws, a.Lang u := by
  constructor
  · rintro ⟨u, v, huv, hu, ws, hv, hall⟩
    refine ⟨u :: ws, by simp, by simp [huv, hv], ?_⟩
    intro x hx
    rcases List.mem_cons.mp hx with h | h
    · exact h ▸ hu
    · exact hall x h
  · rintro ⟨ws, hne, hw, hall⟩
    obtain ⟨x, xs, hx⟩ := List.exists_cons_of_ne_nil hne
    subst hx
    exact ⟨x, xs.flatten, by simp [hw], hall x (List.mem_cons_self _ _), xs, rfl,
      fun u hu => hall u (List.mem_cons_of_mem _ hu)⟩

theorem lang_slash_segment (u : List Char) :
    (Re.seq (Re.cls (fun c => c == '/')) (Re.plus (Re.cls isWordChar))).Lang u ↔
      ∃ s : List Char, u = '/' :: s ∧ s ≠ [] ∧ ∀ c ∈ s, isWordChar c = true := by
  constructor
  · rintro ⟨x, y, hxy, ⟨c, hc, hslash⟩, hy⟩
    have hc' : c = '/' := by simpa using hslash
    subst hc'
    subst hc
    have := (Re.lang_plus_cls isWordChar y).mp hy
    exact ⟨y, by simp [hxy], this.1, this.2⟩
  · rintro ⟨s, hu, hne, hall⟩
    exact ⟨['/'], s, by simp [hu], ⟨'/', rfl, by simp⟩,
      (Re.lang_plus_cls isWordChar s).mpr ⟨hne, hall⟩⟩

theorem flatten_map_slash (segs : List (List Char)) (hne : segs ≠ []) :
    (segs.map (fun s => '/' :: s)).flatten = '/' :: List.intercalate ['/'] segs := by
  induction segs with
  | nil => exact absurd rfl hne
  | cons x xs ih =>
    cases xs with
    | nil => simp [intercalate_single]
    | cons y ys =>
      have := ih (by simp)
      rw [intercalate_cons_cons, List.map_cons, List.flatten_cons, this]
      simp

/-- The paths of `^(/\w+)+$` are the paths the spec describes in words. -/
theorem rePath_lang_iff (p : String) : rePath.Lang p.data ↔ SegmentedPath p := by
  unfold rePath
  rw [Re.lang_plus]
  constructor
  · rintro ⟨ws, hne, hw, hall⟩
    refine ⟨ws.map List.tail, by simpa using hne, ?_, ?_⟩
    · intro s hs
      obtain ⟨u, hu, hus⟩ := List.mem_map.mp hs
      obtain ⟨t, ht, htne, htall⟩ := (lang_slash_segment u).mp (hall u hu)
      subst ht
      subst hus
      exact ⟨htne, htall⟩
    · rw [← flatten_map_slash _ (by simpa using hne), hw, List.map_map]
      congr 1
      symm
      have hid : List.map ((fun s => '/' :: s) ∘ List.tail) ws = List.map id ws := by
        apply List.map_congr_left
        intro u hu
        obtain ⟨t, ht, -, -⟩ := (lang_slash_segment u).mp (hall u hu)
        simp [ht]
      rw [hid, List.map_id]
  · rintro ⟨segs, hne, hall, hdata⟩
    refine ⟨segs.map (fun s => '/' :: s), by simpa using hne, ?_, ?_⟩
    · rw [hdata, flatten_map_slash segs hne]
    · intro u hu
      obtain ⟨t, ht, htu⟩ := List.mem_map.mp hu
      subst htu
      exact (lang_slash_segment _).mpr ⟨t, rfl, (hall t ht).1, (hall t ht).2⟩

/-- The validator is the whole-text match of `^(/\w+)+$`. -/
theorem isURIValid_eq_rePath (p : String) : isURIValid p = rePath.fullMatch p.data := by
  have h : isURIValid p = true ↔ rePath.fullMatch p.data = true := by
    rw [isURIValid_iff_segmented, Re.fullMatch_iff, rePath_lang_iff]
  cases h1 : isURIValid p <;> cases h2 : rePath.fullMatch p.data <;> simp_all

/-! ## Consequences for rejected paths -/

theorem splitChars_append_sep (sep : Char) (a rest : List Char) :
    ∃ parts, splitChars sep (a ++ sep :: rest) = parts ++ splitChars sep rest ∧ parts ≠ [] := by
  induction a with
  | nil => exact ⟨[[]], by simp [splitChars], by simp⟩
  | cons d a ih =>
    obtain ⟨parts, hp, hne⟩ := ih
    obtain ⟨q, qs, hq⟩ := List.exists_cons_of_ne_nil hne
    by_cases hd : d = sep
    · refine ⟨[] :: parts, ?_, by simp⟩
      show splitChars sep (d :: (a ++ sep :: rest)) = _
      simp only [splitChars, hd, if_true, hp, List.cons_append]
    · refine ⟨(d :: q) :: qs, ?_, by simp⟩
      show splitChars sep (d :: (a ++ sep :: rest)) = _
      simp only [splitChars, hd, if_false, hp, hq, List.cons_append]

/-- Every part after the first must be a non-empty word for a path to pass. -/
theorem isURIValid_parts (p : String) (h : isURIValid p = true) :
    ∀ s ∈ (splitChars '/' p.data).tail, s ≠ [] ∧ ∀ c ∈ s, isWordChar c = true := by
  unfold isURIValid at h
  split at h
  · exact absurd h (by simp)
  · split at h
    · exact absurd h (by simp)
    · rename_i first parts hsplit
      split at h
      · exact absurd h (by simp)
      · split at h
        · exact absurd h (by simp)
        · rw [hsplit]
          exact (checkParts_iff parts).mp h

/-- A path with an empty part after a separator is rejected: a doubled or a
trailing `/`. -/
theorem isURIValid_empty_part (a rest : List Char)
    (h : (splitChars '/' rest).head? = some []) :
    isURIValid ⟨a ++ '/' :: rest⟩ = false := by
  cases hv : isURIValid ⟨a ++ '/' :: rest⟩ with
  | false => rfl
  | true =>
    exfalso
    have hparts := isURIValid_parts _ hv
    obtain ⟨parts, hp, hne⟩ := splitChars_append_sep '/' a rest
    obtain ⟨q, qs, hq⟩ := List.exists_cons_of_ne_nil hne
    obtain ⟨r, rs, hr⟩ := List.exists_cons_of_ne_nil (splitChars_ne_nil '/' rest)
    rw [hr] at h
    simp only [List.head?_cons, Option.some.injEq] at h
    simp only [hp, hq, hr, h, List.cons_append, List.tail_cons] at hparts
    exact (hparts [] (by simp)).1 rfl

theorem mem_intercalate (sep : List Char) (c : Char) :
    ∀ segs : List (List Char), c ∈ List.intercalate sep segs → c ∈ sep ∨ ∃ s ∈ segs, c ∈ s := by
  intro segs
  induction segs with
  | nil => intro h; simp [List.intercalate] at h
  | cons x xs ih =>
    cases xs with
    | nil =>
      rw [intercalate_single]
      intro h
      exact Or.inr ⟨x, by simp, h⟩
    | cons y ys =>
      rw [intercalate_cons_cons]
      intro h
      rcases List.mem_append.mp h with h1 | h1
      · rcases List.mem_append.mp h1 with h2 | h2
        · exact Or.inr ⟨x, by simp, h2⟩
        · exact Or.inl h2
      · rcases ih h1 with h2 | ⟨s, hs, hcs⟩
        · exact Or.inl h2
        · exact Or.inr ⟨s, List.mem_cons_of_mem _ hs, hcs⟩

/-- A valid path holds no character other than `/` and word characters. -/
theorem isURIValid_chars (p : String) (h : isURIValid p = true) :
    ∀ c ∈ p.data, c = '/' ∨ isWordChar c = true := by
  obtain ⟨segs, -, hall, hdata⟩ := (isURIValid_iff_segmented p).mp h
  intro c hc
  rw [hdata] at hc
  rcases List.mem_cons.mp hc with h1 | h1
  · exact Or.inl h1
  · rcases mem_intercalate _ _ _ h1 with h2 | ⟨s, hs, hcs⟩
    · left
      simpa using h2
    · exact Or.inr ((hall s hs).2 c hcs)

/-! ## Endpoints -/

theorem handler_server (lib : StdLib) (s : Server) (r : Request) (now : String) :
    (handler lib s r now).server =
      { mux := s.mux
        stat := setStat s.stat (muxHandler lib s.mux r)
          (statOf s (muxHandler lib s.mux r) ++ [recordOf r now]) } := by
  simp only [handler, statOf, recordOf, readBody, List.take_zero]
  congr 1
  funext k
  cases h : s.stat (muxHandler lib s.mux r) with
  | none =>
    by_cases hk : k = muxHandler lib s.mux r <;> simp [setStat, hk]
  | some items => simp [setStat, h]

theorem serveAll_spec (lib : StdLib) (x : String) (reqs : List (Request × String)) :
    ∀ s : Server, (∀ rq ∈ reqs, muxHandler lib s.mux rq.1 = x) →
      (serveAll lib s reqs).mux = s.mux ∧
      (reqs ≠ [] → (serveAll lib s reqs).stat x =
        some (statOf s x ++ reqs.map (fun rq => recordOf rq.1 rq.2))) ∧
      (reqs = [] → serveAll lib s reqs = s) := by
  induction reqs with
  | nil => intro s _; simp [serveAll]
  | cons rq rest ih =>
    intro s hm
    have hq : muxHandler lib s.mux rq.1 = x := hm rq (List.mem_cons_self _ _)
    have hstep := handler_server lib s rq.1 rq.2
    rw [hq] at hstep
    have hm' : ∀ rq' ∈ rest, muxHandler lib (handler lib s rq.1 rq.2).server.mux rq'.1 = x := by
      intro rq' hrq'
      rw [hstep]
      exact hm rq' (List.mem_cons_of_mem _ hrq')
    obtain ⟨h1, h2, h3⟩ := ih _ hm'
    have hunf : serveAll lib s (rq :: rest) = serveAll lib (handler lib s rq.1 rq.2).server rest := rfl
    rw [hunf]
    refine ⟨?_, ?_, by simp⟩
    · rw [h1, hstep]
    · intro _
      by_cases hrest : rest = []
      · rw [h3 hrest, hstep, hrest]
        simp [setStat]
      · rw [h2 hrest, hstep]
        simp [statOf, setStat]

theorem getStat_valid (s : Server) (raw p : String) (hn : normalizeURI raw = .ok p)
    (hv : isURIValid p = true) :
    getStatEndpoint s raw =
      match s.stat p with
      | none => ⟨s, .empty, none⟩
      | some items => ⟨{ s with stat := setStat s.stat p [] }, .json items, none⟩ := by
  simp [getStatEndpoint, hn, hv]

theorem runSteps_conserves (lib : StdLib) (raw x : String) (hn : normalizeURI raw = .ok x)
    (hx : isURIValid x = true) (steps : List Step) :
    ∀ s : Server, (∀ r now, Step.record r now ∈ steps → muxHandler lib s.mux r = x) →
      (runSteps lib raw s steps).2.flatten ++ statOf (runSteps lib raw s steps).1 x =
        statOf s x ++ recordedBy steps := by
  induction steps with
  | nil => intro s _; simp [runSteps, recordedBy]
  | cons st rest ih =>
    intro s hm
    cases st with
    | record r now =>
      have hq : muxHandler lib s.mux r = x := hm r now (List.mem_cons_self _ _)
      have hstep := handler_server lib s r now
      rw [hq] at hstep
      have hm' : ∀ r' now', Step.record r' now' ∈ rest →
          muxHandler lib (handler lib s r now).server.mux r' = x := by
        intro r' now' hmem
        rw [hstep]
        exact hm r' now' (List.mem_cons_of_mem _ hmem)
      have := ih _ hm'
      simp only [runSteps, recordedBy]
      rw [this, hstep]
      simp [statOf, setStat]
    | drain =>
      have hg := getStat_valid s raw x hn hx
      have hm0 : ∀ r' now', Step.record r' now' ∈ rest → muxHandler lib s.mux r' = x := by
        intro r' now' hmem
        exact hm r' now' (List.mem_cons_of_mem _ hmem)
      simp only [runSteps, recordedBy]
      cases hs : s.stat x with
      | none =>
        rw [hs] at hg
        simp only at hg
        rw [hg]
        have := ih s hm0
        simp only [Body.records, List.flatten_cons, List.nil_append]
        exact this
      | some items =>
        rw [hs] at hg
        simp only at hg
        rw [hg]
        have := ih { s with stat := setStat s.stat x [] } hm0
        simp only [Body.records, List.flatten_cons, List.append_assoc]
        rw [this]
        simp [statOf, setStat, hs]

/-- Two texts whose first `n` characters differ are different. -/
theorem text_ne_of_take (n : Nat) (a b x y : String) (h : a.data.take n ≠ b.data.take n)
    (ha : n ≤ a.data.length) (hb : n ≤ b.data.length) : a ++ x ≠ b ++ y := by
  intro heq
  have hd := congrArg (fun t : String => t.data.take n) heq
  simp only [String.data_append] at hd
  rw [List.take_append_of_le_length ha, List.take_append_of_le_length hb] at hd
  exact h hd

theorem isURIValid_ne_empty (p : String) (h : isURIValid p = true) : p ≠ "" := by
  intro h0
  subst h0
  exact absurd h (by decide)

theorem isURIValid_startsWith_slash (p : String) (h : isURIValid p = true) :
    startsWith p "/" = true := by
  obtain ⟨segs, -, -, hdata⟩ := (isURIValid_iff_segmented p).mp h
  have h1 : ("/" : String).data = ['/'] := rfl
  simp [startsWith, hdata, h1]

theorem normalizeURI_valid (p : String) (h : isURIValid p = true) : normalizeURI p = .ok p := by
  obtain ⟨segs, -, -, hdata⟩ := (isURIValid_iff_segmented p).mp h
  simp [normalizeURI, hdata]

/-- With the catch-all `/` registered, as `main` does, the lookup of a valid
path always reports a pattern. -/
theorem muxHandler_initial_ne_empty (lib : StdLib) (r : Request) (h : isURIValid r.Path = true) :
    muxHandler lib initServer.mux r ≠ "" := by
  have hplain : plainLookup initServer.mux r = true := by
    simp only [plainLookup, literalPattern, h, Bool.or_true, Bool.true_and]
    decide
  simp only [muxHandler, hplain, if_true, muxMatch]
  split
  · exact isURIValid_ne_empty _ h
  · have hs := isURIValid_startsWith_slash _ h
    have e1 : isSubtree "/" = true := by decide
    have e2 : isSubtree "/addRoute" = false := by decide
    have e3 : isSubtree "/removeRoute" = false := by decide
    have e4 : isSubtree "/getStat" = false := by decide
    have e5 : ("/" : String).length = 1 := by decide
    simp [initServer, List.foldl, e1, e2, e3, e4, e5, hs]

/-- Without the catch-all `/` the add-route endpoint does register a new
path, and a second call for the same path is turned down. -/
theorem addRoute_without_catch_all (lib : StdLib) :
    addRouteEndpoint lib ⟨[("/addRoute", Hnd.addRoute)], fun _ => none⟩ "hello" =
      ⟨⟨[("/addRoute", Hnd.addRoute), ("/hello", Hnd.generic)], fun _ => none⟩,
        Body.text "New route was added: /hello\n", none⟩ ∧
    addRouteEndpoint lib
        ⟨[("/addRoute", Hnd.addRoute), ("/hello", Hnd.generic)], fun _ => none⟩ "hello" =
      ⟨⟨[("/addRoute", Hnd.addRoute), ("/hello", Hnd.generic)], fun _ => none⟩,
        Body.text "Route [/hello] already registered, remove first.\n", none⟩ :=
  ⟨rfl, rfl⟩

/-- The two endpoints that call the validator turn an invalid path away
before they touch the route table or the stats log. -/
theorem validator_turns_away (lib : StdLib) (s : Server) (raw p : String)
    (hn : normalizeURI raw = .ok p) (hv : isURIValid p = false) :
    addRouteEndpoint lib s raw = ⟨s, Body.text ("Invalid path: " ++ p ++ "\n"), none⟩ ∧
    getStatEndpoint s raw = ⟨s, Body.text ("Invalid path: " ++ p ++ "\n"), none⟩ := by
  constructor
  · simp [addRouteEndpoint, hn, hv]
  · simp [getStatEndpoint, hn, hv]

/-! ## Claims -/

/-- C5: `isURIValid p` holds exactly when `p` is a `/` followed by one or more
non-empty word-character segments joined by single `/` characters, which is
the same as the whole of `p` matching `^(/\w+)+$`. It is false for the empty
string, `/`, `/a/`, `/a.b`, `/a b`, for a path with an empty segment or a
trailing slash, and for a path holding `.`, `-`, `%` or a space; it is true for
`/a` and `/a/b_c/123`. -/
theorem isURIValid_spec :
    (∀ p : String, isURIValid p = true ↔ SegmentedPath p) ∧
    (∀ p : String, isURIValid p = rePath.fullMatch p.data) ∧
    isURIValid "" = false ∧ isURIValid "/" = false ∧ isURIValid "/a/" = false ∧
    isURIValid "/a.b" = false ∧ isURIValid "/a b" = false ∧
    isURIValid "/a" = true ∧ isURIValid "/a/b_c/123" = true ∧
    (∀ a b : List Char, isURIValid ⟨a ++ '/' :: '/' :: b⟩ = false) ∧
    (∀ a : List Char, isURIValid ⟨a ++ ['/']⟩ = false) ∧
    (∀ (p : String) (c : Char), c ∈ p.data → c ∈ ['.', '-', '%', ' '] →
      isURIValid p = false) := by
  refine ⟨isURIValid_iff_segmented, isURIValid_eq_rePath, by decide, by decide, by decide,
    by decide, by decide, by decide, by decide, ?_, ?_, ?_⟩
  · intro a b
    exact isURIValid_empty_part a ('/' :: b) (by simp [splitChars])
  · intro a
    exact isURIValid_empty_part a [] (by simp [splitChars])
  · intro p c hc hbad
    cases hv : isURIValid p with
    | false => rfl
    | true =>
      exfalso
      have hw := isURIValid_chars p hv c hc
      simp only [List.mem_cons, List.mem_singleton, List.not_mem_nil, or_false] at hbad
      rcases hbad with h | h | h | h <;> subst h <;> revert hw <;> decide

/-- Instance of C5: the path `/a-b` holds a `-` and is rejected. -/
theorem isURIValid_spec_witness : isURIValid "/a-b" = false :=
  isURIValid_spec.2.2.2.2.2.2.2.2.2.2.2 "/a-b" '-' (by decide) (by decide)

/-- C6: `normalizeURI` is claimed total, but on the empty string `uri[0]`
panics with an index-out-of-range error and no result is returned. -/
theorem normalizeURI_empty_panics :
    normalizeURI "" = Except.error "runtime error: index out of range [0] with length 0" ∧
    ∀ r : String, normalizeURI "" ≠ Except.ok r := by
  refine ⟨rfl, ?_⟩
  intro r h
  simp [normalizeURI] at h

/-- C7: for a non-empty `raw`, `normalizeURI raw` returns `raw` unchanged when
its first character is `/`, and `/` followed by `raw`, unchanged, otherwise. -/
theorem normalizeURI_nonempty (raw : String) (h : raw ≠ "") :
    normalizeURI raw = Except.ok (if raw.data.head? = some '/' then raw else "/" ++ raw) := by
  unfold normalizeURI
  cases hd : raw.data with
  | nil =>
    exfalso
    apply h
    cases raw
    simp_all
  | cons c cs =>
    by_cases hc : c = '/' <;> simp [hc]

/-- Instance of C7: inner and trailing slashes and blanks are left alone. -/
theorem normalizeURI_nonempty_witness :
    "a//b/ " ≠ "" ∧ normalizeURI "a//b/ " = Except.ok "/a//b/ " ∧
      normalizeURI "/x//y/" = Except.ok "/x//y/" :=
  ⟨by decide, normalizeURI_nonempty "a//b/ " (by decide),
    normalizeURI_nonempty "/x//y/" (by decide)⟩

/-- C8: for a valid path with no entry in the stats log, `/getStat` writes an
empty body, does not panic and leaves the state as it was, creating no entry.
A path with an entry gets the JSON array of its records followed by a newline,
which is `[]` for an empty sequence. -/
theorem getStat_never_recorded (lib : StdLib) (s : Server) (raw p : String)
    (hn : normalizeURI raw = .ok p) (hv : isURIValid p = true) :
    (s.stat p = none →
      (getStatEndpoint s raw).body = Body.empty ∧
      (getStatEndpoint s raw).body.render lib = "" ∧
      (getStatEndpoint s raw).panicked = none ∧
      (getStatEndpoint s raw).server = s ∧
      (getStatEndpoint s raw).server.stat p = none) ∧
    (∀ items, s.stat p = some items →
      (getStatEndpoint s raw).body = Body.json items ∧
      (getStatEndpoint s raw).body.render lib =
        "[" ++ ",".intercalate (items.map lib.jsonObject) ++ "]" ++ "\n") ∧
    (s.stat p = some [] → (getStatEndpoint s raw).body.render lib = "[]\n") := by
  have hg := getStat_valid s raw p hn hv
  refine ⟨?_, ?_, ?_⟩
  · intro h
    rw [h] at hg
    simp only at hg
    rw [hg]
    exact ⟨rfl, rfl, rfl, rfl, h⟩
  · intro items h
    rw [h] at hg
    simp only at hg
    rw [hg]
    exact ⟨rfl, rfl⟩
  · intro h
    rw [h] at hg
    simp only at hg
    rw [hg]
    rfl

/-- Instance of C8: `/getStat?path=x` on the freshly started server. -/
theorem getStat_never_recorded_witness :
    (getStatEndpoint initServer "x").body = Body.empty ∧
    (getStatEndpoint initServer "x").server = initServer :=
  have h := (getStat_never_recorded sampleLib initServer "x" "/x" rfl (by decide)).1 rfl
  ⟨h.1, h.2.2.2.1⟩

/-- C10: the generic handler, called for a request whose matched pattern is
`q`, does not panic and appends one record to the end of the sequence of `q`
(an absent sequence counts as empty): URI is the raw request-target, Method
the request's method, Headers empty and Body the empty string whatever the
payload. The sequences of other paths and the route table stay as they were. -/
theorem handler_appends_one_record (lib : StdLib) (s : Server) (r : Request) (now q : String)
    (hq : muxHandler lib s.mux r = q) :
    (handler lib s r now).panicked = none ∧
    (handler lib s r now).server.stat q =
      some ((s.stat q).getD [] ++
        [{ URI := r.RequestURI, Headers := [], Body := "", Method := r.Method, Time := now }]) ∧
    (∀ k, k ≠ q → (handler lib s r now).server.stat k = s.stat k) ∧
    (handler lib s r now).server.mux = s.mux ∧
    (handler lib s r now).body = Body.text ("Hello, You visited: " ++ q ++ "\n") := by
  have hstep := handler_server lib s r now
  rw [hq] at hstep
  refine ⟨rfl, ?_, ?_, ?_, ?_⟩
  · rw [hstep]
    simp [setStat, statOf, recordOf]
  · intro k hk
    rw [hstep]
    simp [setStat, hk]
  · rw [hstep]
  · simp [handler, hq]

/-- Instance of C10: a PUT with a payload to the registered `/x`. -/
theorem handler_appends_one_record_witness :
    (handler sampleLib sampleServer ⟨"PUT", "/x?b=1", "localhost", "/x", "payload"⟩
      "2024-01-01 10:00:00.250").server.stat "/x" =
    some [{ URI := "/x?b=1", Headers := [], Body := "", Method := "PUT",
            Time := "2024-01-01 10:00:00.250" }] :=
  (handler_appends_one_record sampleLib sampleServer
    ⟨"PUT", "/x?b=1", "localhost", "/x", "payload"⟩ "2024-01-01 10:00:00.250" "/x"
    (by decide)).2.1

/-- C3: let the sequence of a valid path `x` be absent or empty. After `N`
requests with matched pattern `x` were recorded by the generic handler, the
`/getStat` drain of `x` returns exactly their `N` records in the order they
were appended and leaves the sequence of `x` empty, and a second drain right
after returns no record. -/
theorem drain_after_requests (lib : StdLib) (s : Server) (raw x : String) (N : Nat)
    (reqs : List (Request × String))
    (hn : normalizeURI raw = .ok x) (hx : isURIValid x = true)
    (h0 : s.stat x = none ∨ s.stat x = some [])
    (hN : reqs.length = N)
    (hm : ∀ rq ∈ reqs, muxHandler lib s.mux rq.1 = x) :
    (getStatEndpoint (serveAll lib s reqs) raw).body.records =
      reqs.map (fun rq => recordOf rq.1 rq.2) ∧
    (getStatEndpoint (serveAll lib s reqs) raw).body.records.length = N ∧
    (getStatEndpoint (serveAll lib s reqs) raw).panicked = none ∧
    statOf (getStatEndpoint (serveAll lib s reqs) raw).server x = [] ∧
    (getStatEndpoint (getStatEndpoint (serveAll lib s reqs) raw).server raw).body.records = [] ∧
    (0 < N ∨ s.stat x = some [] →
      (getStatEndpoint (serveAll lib s reqs) raw).body =
        Body.json (reqs.map (fun rq => recordOf rq.1 rq.2)) ∧
      (getStatEndpoint (serveAll lib s reqs) raw).server.stat x = some [] ∧
      (getStatEndpoint (getStatEndpoint (serveAll lib s reqs) raw).server raw).body =
        Body.json []) := by
  have hold : statOf s x = [] := by
    rcases h0 with h | h <;> simp [statOf, h]
  obtain ⟨-, hne, hnil⟩ := serveAll_spec lib x reqs s hm
  have hg := getStat_valid (serveAll lib s reqs) raw x hn hx
  by_cases hr : reqs = []
  · have hs1 : serveAll lib s reqs = s := hnil hr
    have hN0 : N = 0 := by rw [← hN, hr]; rfl
    rw [hs1] at hg ⊢
    rcases h0 with h | h
    · rw [h] at hg
      simp only at hg
      rw [hg]
      have hg2 := getStat_valid s raw x hn hx
      rw [h] at hg2
      simp only at hg2
      rw [hg2]
      refine ⟨by simp [Body.records, hr], by simp [Body.records, hN0], rfl, hold, rfl, ?_⟩
      rintro (hpos | hsome)
      · omega
      · rw [h] at hsome
        exact absurd hsome (by simp)
    · rw [h] at hg
      simp only at hg
      rw [hg]
      have hg2 := getStat_valid { s with stat := setStat s.stat x [] } raw x hn hx
      have hst : setStat s.stat x [] x = some [] := by simp [setStat]
      simp only [hst] at hg2
      rw [hg2]
      refine ⟨by simp [Body.records, hr], by simp [Body.records, hN0], rfl,
        by simp [statOf, setStat], rfl, ?_⟩
      intro _
      exact ⟨by simp [hr], hst, rfl⟩
  · have hs1 := hne hr
    rw [hold, List.nil_append] at hs1
    rw [hs1] at hg
    simp only at hg
    rw [hg]
    have hg2 := getStat_valid
      { serveAll lib s reqs with stat := setStat (serveAll lib s reqs).stat x [] } raw x hn hx
    have hst : setStat (serveAll lib s reqs).stat x [] x = some [] := by simp [setStat]
    simp only [hst] at hg2
    rw [hg2]
    refine ⟨rfl, by simp [Body.records, hN], rfl, by simp [statOf, setStat], rfl, ?_⟩
    intro _
    exact ⟨rfl, hst, rfl⟩

/-- Instance of C3: two requests to `/x`, then two drains. -/
theorem drain_after_requests_witness :
    (getStatEndpoint (serveAll sampleLib sampleServer sampleRequests) "x").body.records.length
      = 2 ∧
    (getStatEndpoint (getStatEndpoint (serveAll sampleLib sampleServer sampleRequests)
      "x").server "x").body.records = [] :=
  have h := drain_after_requests sampleLib sampleServer "x" "/x" 2 sampleRequests
    rfl (by decide) (Or.inl rfl) rfl (by decide)
  ⟨h.2.1, h.2.2.2.2.1⟩

/-- C4: for every sequence of record and drain steps on one valid path, each
step atomic, the drain results in the order the drains ran, followed by the
sequence still stored at the end, are the sequence stored at the start
followed by the recorded records in the order they were appended: no record
is lost and none is reported twice. -/
theorem interleaving_conserves_records (lib : StdLib) (s : Server) (raw x : String)
    (steps : List Step)
    (hn : normalizeURI raw = .ok x) (hx : isURIValid x = true)
    (hm : ∀ r now, Step.record r now ∈ steps → muxHandler lib s.mux r = x) :
    (runSteps lib raw s steps).2.flatten ++ statOf (runSteps lib raw s steps).1 x =
      statOf s x ++ recordedBy steps ∧
    (statOf s x = [] →
      (runSteps lib raw s steps).2.flatten ++ statOf (runSteps lib raw s steps).1 x =
        recordedBy steps) := by
  have h := runSteps_conserves lib raw x hn hx steps s hm
  refine ⟨h, ?_⟩
  intro h0
  rw [h, h0, List.nil_append]

/-- Instance of C4: the sample steps on `/x`, starting with nothing stored. -/
theorem interleaving_conserves_records_witness :
    (runSteps sampleLib "/x" sampleServer sampleSteps).2.flatten ++
      statOf (runSteps sampleLib "/x" sampleServer sampleSteps).1 "/x" =
      recordedBy sampleSteps :=
  (interleaving_conserves_records sampleLib sampleServer "/x" "/x" sampleSteps rfl (by decide)
    (by
      intro r now hmem
      simp only [sampleSteps, List.mem_cons, Step.record.injEq, List.mem_singleton,
        reduceCtorEq, false_or, or_false, List.not_mem_nil] at hmem
      rcases hmem with ⟨h, -⟩ | ⟨h, -⟩ | ⟨h, -⟩ | ⟨h, -⟩ <;> subst h <;> decide)).2 rfl

/-- C1: on the server as `main` sets it up, `/addRoute` for a valid path `p`
does not answer `New route was added: p`: the catch-all `/` makes the lookup
report a pattern, so the answer is `Route [p] already registered, remove
first.` and nothing is registered. `/removeRoute` never deregisters and never
answers `Route removed`, since `RemoveRoute` registers a nil handler. -/
theorem addRoute_on_initial_server (lib : StdLib) (raw p : String)
    (hn : normalizeURI raw = .ok p) (hv : isURIValid p = true) :
    addRouteEndpoint lib initServer raw =
      ⟨initServer, Body.text ("Route [" ++ p ++ "] already registered, remove first.\n"),
        none⟩ ∧
    (∀ s : Server, (removeRouteEndpoint lib s raw).server = s ∧
      (removeRouteEndpoint lib s raw).body ≠ Body.text ("Route removed: " ++ p ++ "\n")) := by
  constructor
  · have hreq : NewRequest lib p =
        .ok { Method := "GET", RequestURI := "", Host := "", Path := p, Payload := "" } := by
      simp [NewRequest, literalPattern, hv]
    have hpat := muxHandler_initial_ne_empty lib
      { Method := "GET", RequestURI := "", Host := "", Path := p, Payload := "" } hv
    simp [addRouteEndpoint, hn, hv, hreq, hpat]
  · intro s
    simp only [removeRouteEndpoint, hn, RemoveRoute, HandleFunc]
    cases NewRequest lib p with
    | error e =>
      refine ⟨rfl, ?_⟩
      simp only [ne_eq, Body.text.injEq]
      rw [String.append_assoc, String.append_assoc]
      exact text_ne_of_take 7 _ _ _ _ (by decide) (by decide) (by decide)
    | ok testReq =>
      simp only
      split
      · refine ⟨rfl, ?_⟩
        simp only [ne_eq, Body.text.injEq]
        rw [String.append_assoc, String.append_assoc]
        exact text_ne_of_take 7 _ _ _ _ (by decide) (by decide) (by decide)
      · exact ⟨rfl, by simp⟩

/-- Instance of C1: `/addRoute?path=hello` on the freshly started server. -/
theorem addRoute_on_initial_server_witness :
    addRouteEndpoint sampleLib initServer "hello" =
      ⟨initServer, Body.text "Route [/hello] already registered, remove first.\n", none⟩ :=
  (addRoute_on_initial_server sampleLib "hello" "/hello" rfl (by decide)).1

/-- C2: on the server as `main` sets it up, `/removeRoute` for a valid path
that was never added does not answer `Route doesn't exist`: the lookup reports
the catch-all `/`, `RemoveRoute` is called and panics on its nil handler, and
nothing is written. The route table stays as it was. -/
theorem removeRoute_on_initial_server (lib : StdLib) (raw p : String)
    (hn : normalizeURI raw = .ok p) (hv : isURIValid p = true) :
    removeRouteEndpoint lib initServer raw = ⟨initServer, Body.empty, some "http: nil handler"⟩ ∧
    RemoveRoute initServer p = .error "http: nil handler" := by
  have hreq : NewRequest lib p =
      .ok { Method := "GET", RequestURI := "", Host := "", Path := p, Payload := "" } := by
    simp [NewRequest, literalPattern, hv]
  have hpat := muxHandler_initial_ne_empty lib
    { Method := "GET", RequestURI := "", Host := "", Path := p, Payload := "" } hv
  constructor
  · simp [removeRouteEndpoint, hn, hreq, hpat, RemoveRoute, HandleFunc]
  · rfl

/-- Instance of C2: `/removeRoute?path=hello` on the freshly started server. -/
theorem removeRoute_on_initial_server_witness :
    removeRouteEndpoint sampleLib initServer "hello" =
      ⟨initServer, Body.empty, some "http: nil handler"⟩ :=
  (removeRoute_on_initial_server sampleLib "hello" "/hello" rfl (by decide)).1

end APIListener
